import Mathlib

/-! Verification of the caddy-tlsconsul storage backend.

The crypto layer is embedded from src/crypto.go: `encrypt`, `decrypt`,
`EncryptStorageData` and `DecryptStorageData` below mirror the Go functions
statement by statement.  Byte strings are lists of naturals; a well-formed
byte string has all entries below 256.  The Go standard library's AES-GCM and
encoding/json, and the `StorageData` record itself (declared in storage.go,
which is not part of the visible sources), are modelled from the spec as
noted on each definition. -/

abbrev Bytes := List Nat

/-- Well-formed byte strings: every entry is an actual byte value. -/
abbrev BytesWF (l : Bytes) : Prop := ∀ x ∈ l, x < 256

/-- aes.BlockSize in the Go standard library. -/
def aesBlockSize : Nat := 16

/-- gcm.NonceSize() for the standard GCM mode. -/
def gcmNonceSize : Nat := 12

/-- gcm.Overhead(), the length of the GCM authentication tag. -/
def gcmTagSize : Nat := 16

/-- aes.NewCipher accepts exactly the AES-128/192/256 key lengths. -/
def validAesKeyLength (n : Nat) : Bool := n == 16 || n == 24 || n == 32

/-- Sum of the bytes of a byte string, the checksum base of the idealized tag. -/
def byteSum : Bytes → Nat
  | [] => 0
  | b :: l => b + byteSum l

/-- Modelled from the spec: the AES-GCM implementation lives in the Go standard
library, outside this repository; the spec describes it as authenticated
encryption whose tag verifies integrity of ciphertext and nonce.  Idealized
tag of `gcmTagSize` bytes over key, nonce and plaintext; its checksum byte
changes whenever a single byte of key, nonce or plaintext changes. -/
def gcmTag (key nonce pt : Bytes) : Bytes :=
  List.replicate (gcmTagSize - 1) 0 ++ [(byteSum key + byteSum nonce + byteSum pt) % 256]

/-- Modelled from the spec: gcm.Seal produces ciphertext of the plaintext's
length followed by the authentication tag (the idealized model keeps the
plaintext bytes in place, since only integrity, not secrecy, is reasoned
about). -/
def gcmSeal (key nonce pt : Bytes) : Bytes := pt ++ gcmTag key nonce pt

/-- Modelled from the spec: gcm.Open rejects inputs shorter than the tag,
recomputes the tag over the carried plaintext and the supplied key and nonce,
and fails unless it matches the trailing tag bytes exactly. -/
def gcmOpen (key nonce c : Bytes) : Option Bytes :=
  if c.length < gcmTagSize then none
  else
    if c.drop (c.length - gcmTagSize) = gcmTag key nonce (c.take (c.length - gcmTagSize))
    then some (c.take (c.length - gcmTagSize)) else none

/-- The error outcomes of crypto.go, one constructor per distinct return site. -/
inductive CryptoErr where
  | aesCipherErr : CryptoErr
  | invalidContents : CryptoErr
  | decryptFailure : CryptoErr
  | invalidDataFormat : CryptoErr
  | unmarshalErr : CryptoErr
deriving DecidableEq

/-- The configuration fields of ConsulStorage that crypto.go reads. -/
structure ConsulStorage where
  AESKey : Bytes
  ValuePrefix : Bytes

/-- Modelled from the spec: StorageData is declared in storage.go, which is not
among the visible sources; per the spec it carries an opaque byte payload and
the timestamp of the last write. -/
structure StorageData where
  Value : Bytes
  Modified : Nat
deriving DecidableEq

/-- Modelled from the spec: json.Marshal of a StorageData record (encoding/json
is outside this repository).  A self-delimiting injective byte encoding: the
timestamp and the payload length are written in unary with a zero terminator,
followed by the raw payload, so unmarshalling inverts marshalling exactly. -/
def jsonMarshal (d : StorageData) : Bytes :=
  (List.replicate d.Modified 1 ++ [0]) ++ ((List.replicate d.Value.length 1 ++ [0]) ++ d.Value)

/-- Reads one unary-with-terminator number off the front of a byte string. -/
def parseUnary : Bytes → Option (Nat × Bytes)
  | [] => none
  | b :: l =>
    if b = 0 then some (0, l)
    else if b = 1 then
      match parseUnary l with
      | some (n, r) => some (n + 1, r)
      | none => none
    else none

/-- Modelled from the spec: json.Unmarshal into a StorageData record, the exact
inverse of `jsonMarshal`, failing on any malformed or trailing input. -/
def jsonUnmarshal (b : Bytes) : Option StorageData :=
  match parseUnary b with
  | none => none
  | some (m, r1) =>
    match parseUnary r1 with
    | none => none
    | some (n, r2) => if r2.length = n then some ⟨r2, m⟩ else none

/-- crypto.go encrypt: identity when no key is configured, otherwise AES-GCM
with a fresh nonce prepended to the sealed output.  The nonce, drawn from
crypto/rand in Go, is an explicit parameter here. -/
def encrypt (cs : ConsulStorage) (nonce msg : Bytes) : Except CryptoErr Bytes :=
  if cs.AESKey.length = 0 then Except.ok msg
  else if validAesKeyLength cs.AESKey.length = false then Except.error CryptoErr.aesCipherErr
  else Except.ok (nonce ++ gcmSeal cs.AESKey nonce msg)

/-- crypto.go EncryptStorageData: JSON-marshal, prepend ValuePrefix, encrypt. -/
def EncryptStorageData (cs : ConsulStorage) (nonce : Bytes) (d : StorageData) :
    Except CryptoErr Bytes :=
  encrypt cs nonce (cs.ValuePrefix ++ jsonMarshal d)

/-- crypto.go decrypt: identity when no key is configured; otherwise reject
inputs shorter than aes.BlockSize, then split off the nonce and open the
remainder with GCM. -/
def decrypt (cs : ConsulStorage) (b : Bytes) : Except CryptoErr Bytes :=
  if cs.AESKey.length = 0 then Except.ok b
  else if b.length < aesBlockSize then Except.error CryptoErr.invalidContents
  else if validAesKeyLength cs.AESKey.length = false then Except.error CryptoErr.aesCipherErr
  else
    match gcmOpen cs.AESKey (b.take gcmNonceSize) (b.drop gcmNonceSize) with
    | none => Except.error CryptoErr.decryptFailure
    | some out => Except.ok out

/-- crypto.go DecryptStorageData: decrypt, check and strip ValuePrefix, then
JSON-unmarshal the remainder. -/
def DecryptStorageData (cs : ConsulStorage) (b : Bytes) : Except CryptoErr StorageData :=
  match decrypt cs b with
  | Except.error e => Except.error e
  | Except.ok plain =>
    if plain.length < cs.ValuePrefix.length ∨
        plain.take cs.ValuePrefix.length ≠ cs.ValuePrefix then
      Except.error CryptoErr.invalidDataFormat
    else
      match jsonUnmarshal (plain.drop cs.ValuePrefix.length) with
      | none => Except.error CryptoErr.unmarshalErr
      | some d => Except.ok d

theorem byteSum_append (a b : Bytes) : byteSum (a ++ b) = byteSum a + byteSum b := by
  induction a with
  | nil => simp [byteSum]
  | cons x l ih => simp [byteSum, ih, Nat.add_assoc]

theorem gcmTag_length (key nonce pt : Bytes) : (gcmTag key nonce pt).length = gcmTagSize := by
  simp [gcmTag, gcmTagSize]

theorem gcmSeal_length (key nonce pt : Bytes) :
    (gcmSeal key nonce pt).length = pt.length + gcmTagSize := by
  simp [gcmSeal, gcmTag_length]

theorem gcmOpen_gcmSeal (key nonce pt : Bytes) :
    gcmOpen key nonce (gcmSeal key nonce pt) = some pt := by
  have hlen : (gcmSeal key nonce pt).length = pt.length + gcmTagSize := gcmSeal_length ..
  have hsub : (gcmSeal key nonce pt).length - gcmTagSize = pt.length := by omega
  have htake : (gcmSeal key nonce pt).take ((gcmSeal key nonce pt).length - gcmTagSize) = pt := by
    rw [hsub]; exact List.take_left' rfl
  have hdrop : (gcmSeal key nonce pt).drop ((gcmSeal key nonce pt).length - gcmTagSize)
      = gcmTag key nonce pt := by
    rw [hsub]; exact List.drop_left' rfl
  unfold gcmOpen
  rw [if_neg (by omega), htake, hdrop, if_pos rfl]

theorem parseUnary_encode (n : Nat) (r : Bytes) :
    parseUnary (List.replicate n 1 ++ (0 :: r)) = some (n, r) := by
  induction n with
  | zero => simp [parseUnary]
  | succ k ih => simp [List.replicate_succ, parseUnary, ih]

theorem jsonUnmarshal_jsonMarshal (d : StorageData) :
    jsonUnmarshal (jsonMarshal d) = some d := by
  unfold jsonMarshal jsonUnmarshal
  simp [List.append_assoc, parseUnary_encode]

theorem validAesKeyLength_pos {n : Nat} (h : validAesKeyLength n = true) : n ≠ 0 := by
  simp [validAesKeyLength] at h
  rcases h with h | h | h <;> omega

/-- Once decrypt has succeeded, DecryptStorageData is the ValuePrefix check
followed by JSON unmarshalling of the stripped remainder. -/
theorem DecryptStorageData_ok_case (cs : ConsulStorage) (b plain : Bytes)
    (hdec : decrypt cs b = Except.ok plain) :
    DecryptStorageData cs b =
      if plain.length < cs.ValuePrefix.length ∨
          plain.take cs.ValuePrefix.length ≠ cs.ValuePrefix then
        Except.error CryptoErr.invalidDataFormat
      else
        match jsonUnmarshal (plain.drop cs.ValuePrefix.length) with
        | none => Except.error CryptoErr.unmarshalErr
        | some d => Except.ok d := by
  unfold DecryptStorageData
  rw [hdec]

/-- Under a valid configured key, EncryptStorageData succeeds and its output is
the nonce followed by the sealed, prefixed JSON blob. -/
theorem encrypt_ok_form (cs : ConsulStorage) (nonce : Bytes) (d : StorageData)
    (hkey : validAesKeyLength cs.AESKey.length = true) :
    EncryptStorageData cs nonce d =
      Except.ok (nonce ++ gcmSeal cs.AESKey nonce (cs.ValuePrefix ++ jsonMarshal d)) := by
  unfold EncryptStorageData encrypt
  rw [if_neg (validAesKeyLength_pos hkey), if_neg (by simp [hkey])]

/-- The ValuePrefix check and the JSON stage succeed on a prefixed marshalled
blob. -/
theorem decode_plain_ok (cs : ConsulStorage) (d : StorageData) (plain : Bytes)
    (hplain : plain = cs.ValuePrefix ++ jsonMarshal d) :
    (if plain.length < cs.ValuePrefix.length ∨
        plain.take cs.ValuePrefix.length ≠ cs.ValuePrefix then
      Except.error CryptoErr.invalidDataFormat
    else
      match jsonUnmarshal (plain.drop cs.ValuePrefix.length) with
      | none => Except.error CryptoErr.unmarshalErr
      | some d2 => Except.ok d2) = (Except.ok d : Except CryptoErr StorageData) := by
  subst hplain
  have htake : (cs.ValuePrefix ++ jsonMarshal d).take cs.ValuePrefix.length = cs.ValuePrefix :=
    List.take_left' rfl
  have hdrop : (cs.ValuePrefix ++ jsonMarshal d).drop cs.ValuePrefix.length = jsonMarshal d :=
    List.drop_left' rfl
  rw [if_neg (by simp [htake])]
  rw [hdrop, jsonUnmarshal_jsonMarshal]

/-- C1: codec round-trip.  For every StorageData record, every nonce of the
cipher mode's nonce length and every key configuration (no AES key, or a valid
AES key used identically for both calls), DecryptStorageData inverts
EncryptStorageData exactly. -/
theorem C1_roundtrip (cs : ConsulStorage) (d : StorageData) (nonce : Bytes)
    (hkey : cs.AESKey.length = 0 ∨ validAesKeyLength cs.AESKey.length = true)
    (hn : nonce.length = gcmNonceSize) :
    ∃ out, EncryptStorageData cs nonce d = Except.ok out ∧
      DecryptStorageData cs out = Except.ok d := by
  rcases hkey with hkey | hkey
  · refine ⟨cs.ValuePrefix ++ jsonMarshal d, ?_, ?_⟩
    · unfold EncryptStorageData encrypt
      rw [if_pos hkey]
    · unfold DecryptStorageData decrypt
      rw [if_pos hkey]
      exact decode_plain_ok cs d _ rfl
  · refine ⟨nonce ++ gcmSeal cs.AESKey nonce (cs.ValuePrefix ++ jsonMarshal d),
      encrypt_ok_form cs nonce d hkey, ?_⟩
    have hlen : (nonce ++ gcmSeal cs.AESKey nonce (cs.ValuePrefix ++ jsonMarshal d)).length
        = gcmNonceSize + ((cs.ValuePrefix ++ jsonMarshal d).length + gcmTagSize) := by
      simp [gcmSeal_length, hn]
    unfold DecryptStorageData decrypt
    rw [if_neg (validAesKeyLength_pos hkey),
      if_neg (by rw [hlen]; simp [aesBlockSize, gcmNonceSize, gcmTagSize]; omega),
      if_neg (by simp [hkey])]
    rw [List.take_left' hn, List.drop_left' hn, gcmOpen_gcmSeal]
    exact decode_plain_ok cs d _ rfl

theorem C1_roundtrip_witness :
    ∃ out,
      EncryptStorageData ⟨List.replicate 16 3, [7]⟩ (List.replicate 12 0) ⟨[5], 2⟩
        = Except.ok out ∧
      DecryptStorageData ⟨List.replicate 16 3, [7]⟩ out = Except.ok ⟨[5], 2⟩ :=
  C1_roundtrip ⟨List.replicate 16 3, [7]⟩ ⟨[5], 2⟩ (List.replicate 12 0)
    (Or.inr (by decide)) (by decide)

/-- C4: encode postcondition.  EncryptStorageData JSON-serializes the record
and prepends ValuePrefix; with no key configured the output is exactly that
cleartext blob; with a valid key the output is the nonce (of exactly the cipher
mode's nonce length) followed by the sealed blob, whose length is the prefixed
JSON length plus the tag overhead. -/
theorem C4_encode_postcondition (cs : ConsulStorage) (d : StorageData) (nonce : Bytes)
    (hn : nonce.length = gcmNonceSize) :
    (cs.AESKey.length = 0 →
      EncryptStorageData cs nonce d = Except.ok (cs.ValuePrefix ++ jsonMarshal d)) ∧
    (validAesKeyLength cs.AESKey.length = true →
      ∃ sealed, EncryptStorageData cs nonce d = Except.ok (nonce ++ sealed) ∧
        (nonce ++ sealed).take gcmNonceSize = nonce ∧
        sealed = gcmSeal cs.AESKey nonce (cs.ValuePrefix ++ jsonMarshal d) ∧
        sealed.length = (cs.ValuePrefix ++ jsonMarshal d).length + gcmTagSize) := by
  constructor
  · intro hkey
    unfold EncryptStorageData encrypt
    rw [if_pos hkey]
  · intro hkey
    exact ⟨gcmSeal cs.AESKey nonce (cs.ValuePrefix ++ jsonMarshal d),
      encrypt_ok_form cs nonce d hkey, List.take_left' hn, rfl, gcmSeal_length ..⟩

theorem C4_encode_postcondition_witness :
    ((⟨List.replicate 16 3, [7]⟩ : ConsulStorage).AESKey.length = 0 →
      EncryptStorageData ⟨List.replicate 16 3, [7]⟩ (List.replicate 12 0) ⟨[5], 2⟩
        = Except.ok ((⟨List.replicate 16 3, [7]⟩ : ConsulStorage).ValuePrefix
            ++ jsonMarshal ⟨[5], 2⟩)) ∧
    (validAesKeyLength (⟨List.replicate 16 3, [7]⟩ : ConsulStorage).AESKey.length = true →
      ∃ sealed,
        EncryptStorageData ⟨List.replicate 16 3, [7]⟩ (List.replicate 12 0) ⟨[5], 2⟩
          = Except.ok (List.replicate 12 0 ++ sealed) ∧
        (List.replicate 12 0 ++ sealed).take gcmNonceSize = List.replicate 12 0 ∧
        sealed = gcmSeal (⟨List.replicate 16 3, [7]⟩ : ConsulStorage).AESKey
            (List.replicate 12 0)
            ((⟨List.replicate 16 3, [7]⟩ : ConsulStorage).ValuePrefix
              ++ jsonMarshal ⟨[5], 2⟩) ∧
        sealed.length = ((⟨List.replicate 16 3, [7]⟩ : ConsulStorage).ValuePrefix
            ++ jsonMarshal ⟨[5], 2⟩).length + gcmTagSize) :=
  C4_encode_postcondition ⟨List.replicate 16 3, [7]⟩ ⟨[5], 2⟩ (List.replicate 12 0) (by decide)

/-- C5: prefix rejection.  Whenever decrypt succeeds but its output does not
begin with ValuePrefix, DecryptStorageData fails with the format error and
never yields a record. -/
theorem C5_bad_prefix_rejected (cs : ConsulStorage) (b plain : Bytes)
    (hdec : decrypt cs b = Except.ok plain)
    (hbad : plain.take cs.ValuePrefix.length ≠ cs.ValuePrefix) :
    DecryptStorageData cs b = Except.error CryptoErr.invalidDataFormat := by
  rw [DecryptStorageData_ok_case cs b plain hdec, if_pos (Or.inr hbad)]

theorem C5_bad_prefix_rejected_witness :
    DecryptStorageData ⟨[], [7]⟩ [9] = Except.error CryptoErr.invalidDataFormat :=
  C5_bad_prefix_rejected ⟨[], [7]⟩ [9] [9] (by rfl) (by decide)

/-- C6: short-input rejection.  With a valid AES key configured, any input
shorter than nonce length plus tag length is rejected by decrypt (either by
the aes.BlockSize floor or by GCM refusing a ciphertext shorter than its tag),
so DecryptStorageData never reaches the record stage. -/
theorem C6_short_input_rejected (cs : ConsulStorage) (b : Bytes)
    (hkey : validAesKeyLength cs.AESKey.length = true)
    (hshort : b.length < gcmNonceSize + gcmTagSize) :
    DecryptStorageData cs b = Except.error CryptoErr.invalidContents ∨
    DecryptStorageData cs b = Except.error CryptoErr.decryptFailure := by
  unfold DecryptStorageData decrypt
  rw [if_neg (validAesKeyLength_pos hkey)]
  by_cases hlen : b.length < aesBlockSize
  · rw [if_pos hlen]
    exact Or.inl rfl
  · rw [if_neg hlen, if_neg (by simp [hkey])]
    have hopen : gcmOpen cs.AESKey (b.take gcmNonceSize) (b.drop gcmNonceSize) = none := by
      unfold gcmOpen
      rw [if_pos (by simp [gcmNonceSize, gcmTagSize] at hshort ⊢; omega)]
    rw [hopen]
    exact Or.inr rfl

theorem C6_short_input_rejected_witness :
    DecryptStorageData ⟨List.replicate 16 3, [7]⟩ (List.replicate 20 1)
        = Except.error CryptoErr.invalidContents ∨
    DecryptStorageData ⟨List.replicate 16 3, [7]⟩ (List.replicate 20 1)
        = Except.error CryptoErr.decryptFailure :=
  C6_short_input_rejected ⟨List.replicate 16 3, [7]⟩ (List.replicate 20 1)
    (by decide) (by decide)

/-- C8: cleartext mode has no authentication failures.  With an empty AES key,
decrypt is the identity on every input, and DecryptStorageData can only fail
through the ValuePrefix check or JSON unmarshalling, never with a
decryption or key error. -/
theorem C8_cleartext_no_auth_error (cs : ConsulStorage) (b : Bytes)
    (hkey : cs.AESKey.length = 0) :
    decrypt cs b = Except.ok b ∧
    ∀ e, DecryptStorageData cs b = Except.error e →
      e = CryptoErr.invalidDataFormat ∨ e = CryptoErr.unmarshalErr := by
  have hdec : decrypt cs b = Except.ok b := by
    unfold decrypt
    rw [if_pos hkey]
  refine ⟨hdec, ?_⟩
  intro e he
  rw [DecryptStorageData_ok_case cs b b hdec] at he
  by_cases hfmt : b.length < cs.ValuePrefix.length ∨
      b.take cs.ValuePrefix.length ≠ cs.ValuePrefix
  · rw [if_pos hfmt] at he
    exact Or.inl (Except.error.inj he).symm
  · rw [if_neg hfmt] at he
    cases hj : jsonUnmarshal (b.drop cs.ValuePrefix.length) with
    | none => rw [hj] at he; exact Or.inr (Except.error.inj he).symm
    | some d => rw [hj] at he; exact absurd he (by simp)

theorem C8_cleartext_no_auth_error_witness :
    decrypt ⟨[], [7]⟩ [9] = Except.ok [9] ∧
    ∀ e, DecryptStorageData ⟨[], [7]⟩ [9] = Except.error e →
      e = CryptoErr.invalidDataFormat ∨ e = CryptoErr.unmarshalErr :=
  C8_cleartext_no_auth_error ⟨[], [7]⟩ [9] (by decide)

/-- C9: an invalid key never degrades to cleartext.  With a non-empty key of a
length aes.NewCipher rejects, EncryptStorageData fails on every record and
nonce (so nothing is ever written unencrypted), and DecryptStorageData fails
on every input. -/
theorem C9_invalid_key_always_fails (cs : ConsulStorage)
    (hne : cs.AESKey.length ≠ 0) (hbad : validAesKeyLength cs.AESKey.length = false) :
    (∀ nonce d, EncryptStorageData cs nonce d = Except.error CryptoErr.aesCipherErr) ∧
    (∀ b, DecryptStorageData cs b = Except.error CryptoErr.invalidContents ∨
      DecryptStorageData cs b = Except.error CryptoErr.aesCipherErr) := by
  constructor
  · intro nonce d
    unfold EncryptStorageData encrypt
    rw [if_neg hne, if_pos hbad]
  · intro b
    unfold DecryptStorageData decrypt
    rw [if_neg hne]
    by_cases hlen : b.length < aesBlockSize
    · rw [if_pos hlen]
      exact Or.inl rfl
    · rw [if_neg hlen, if_pos hbad]
      exact Or.inr rfl

theorem C9_invalid_key_always_fails_witness :
    (∀ nonce d, EncryptStorageData ⟨[1, 2, 3], [7]⟩ nonce d
        = Except.error CryptoErr.aesCipherErr) ∧
    (∀ b, DecryptStorageData ⟨[1, 2, 3], [7]⟩ b = Except.error CryptoErr.invalidContents ∨
      DecryptStorageData ⟨[1, 2, 3], [7]⟩ b = Except.error CryptoErr.aesCipherErr) :=
  C9_invalid_key_always_fails ⟨[1, 2, 3], [7]⟩ (by decide) (by decide)

/-- C10: decode is deterministic while encode is randomized.  DecryptStorageData
is a pure function of configuration and input, while with a configured key two
different nonces make EncryptStorageData produce different byte sequences for
one and the same record. -/
theorem C10_decode_deterministic_encode_randomized :
    (∀ (cs : ConsulStorage) (b1 b2 : Bytes), b1 = b2 →
      DecryptStorageData cs b1 = DecryptStorageData cs b2) ∧
    (∀ (cs : ConsulStorage) (d : StorageData) (n1 n2 : Bytes),
      validAesKeyLength cs.AESKey.length = true →
      n1.length = gcmNonceSize → n2.length = gcmNonceSize → n1 ≠ n2 →
      EncryptStorageData cs n1 d ≠ EncryptStorageData cs n2 d) := by
  constructor
  · intro cs b1 b2 h
    rw [h]
  · intro cs d n1 n2 hkey h1 h2 hne heq
    rw [encrypt_ok_form cs n1 d hkey, encrypt_ok_form cs n2 d hkey] at heq
    have hlist := Except.ok.inj heq
    have : n1 = n2 := by
      have := congrArg (List.take gcmNonceSize) hlist
      rwa [List.take_left' h1, List.take_left' h2] at this
    exact hne this

theorem byteSum_set (l : Bytes) (i b : Nat) (hi : i < l.length) :
    byteSum (l.set i b) + l.getD i 0 = byteSum l + b := by
  induction l generalizing i with
  | nil => simp at hi
  | cons x xs ih =>
    cases i with
    | zero => simp [byteSum]; omega
    | succ j =>
      have hj : j < xs.length := by simpa using hi
      have := ih j hj
      simp [byteSum] at this ⊢
      omega

theorem byteSum_set_not_modeq (l : Bytes) (i b : Nat) (hWF : BytesWF l) (hi : i < l.length)
    (hb : b < 256) (hne : b ≠ l.getD i 0) :
    ¬ Nat.ModEq 256 (byteSum l) (byteSum (l.set i b)) := by
  intro h
  have hsum : byteSum (l.set i b) + l.getD i 0 = byteSum l + b := byteSum_set l i b hi
  have ha : l.getD i 0 < 256 := by
    have hmem : l.getD i 0 ∈ l := by
      have hg : l.getD i 0 = l[i] := by
        simp [List.getD_eq_getElem?_getD, List.getElem?_eq_getElem hi]
      rw [hg]
      exact List.getElem_mem hi
    exact hWF _ hmem
  have h2 : byteSum l + b ≡ byteSum (l.set i b) + b [MOD 256] := Nat.ModEq.add_right b h
  rw [← hsum] at h2
  have h3 : l.getD i 0 ≡ b [MOD 256] := Nat.ModEq.add_left_cancel' _ h2
  have h4 : l.getD i 0 % 256 = b % 256 := h3
  rw [Nat.mod_eq_of_lt ha, Nat.mod_eq_of_lt hb] at h4
  exact hne h4.symm

theorem gcmTag_eq_iff (k1 n1 p1 k2 n2 p2 : Bytes) :
    gcmTag k1 n1 p1 = gcmTag k2 n2 p2 ↔
      (byteSum k1 + byteSum n1 + byteSum p1) % 256
        = (byteSum k2 + byteSum n2 + byteSum p2) % 256 := by
  unfold gcmTag
  constructor
  · intro h
    have h2 := List.append_cancel_left h
    simpa using h2
  · intro h
    rw [h]

theorem set_ne_self (l : Bytes) (k b : Nat) (hk : k < l.length) (hb : b ≠ l.getD k 0) :
    l.set k b ≠ l := by
  intro h
  apply hb
  have h1 : (l.set k b).getD k 0 = b := by
    simp [List.getD_eq_getElem?_getD, List.getElem?_set_self hk]
  have h2 := congrArg (fun t => t.getD k 0) h
  simp only at h2
  rw [h1] at h2
  exact h2

theorem getD_append_left (l1 l2 : Bytes) (i : Nat) (h : i < l1.length) :
    (l1 ++ l2).getD i 0 = l1.getD i 0 := by
  simp [List.getD_eq_getElem?_getD, List.getElem?_append_left h]

theorem getD_append_right (l1 l2 : Bytes) (i : Nat) (h : l1.length ≤ i) :
    (l1 ++ l2).getD i 0 = l2.getD (i - l1.length) 0 := by
  simp [List.getD_eq_getElem?_getD, List.getElem?_append_right h]

theorem gcmOpen_append_tag (key nonce pt t : Bytes) (ht : t.length = gcmTagSize) :
    gcmOpen key nonce (pt ++ t) = if t = gcmTag key nonce pt then some pt else none := by
  unfold gcmOpen
  have hlen : (pt ++ t).length = pt.length + gcmTagSize := by simp [ht]
  have hsub : (pt ++ t).length - gcmTagSize = pt.length := by omega
  rw [if_neg (by rw [hlen]; omega), hsub, List.take_left' rfl, List.drop_left' rfl]

theorem BytesWF_append {a b : Bytes} (ha : BytesWF a) (hb : BytesWF b) : BytesWF (a ++ b) := by
  intro x hx
  rcases List.mem_append.mp hx with h | h
  · exact ha x h
  · exact hb x h

theorem jsonMarshal_WF (d : StorageData) (h : BytesWF d.Value) : BytesWF (jsonMarshal d) := by
  intro x hx
  unfold jsonMarshal at hx
  simp only [List.mem_append, List.mem_replicate, List.mem_singleton] at hx
  rcases hx with (⟨_, rfl⟩ | rfl) | (⟨_, rfl⟩ | rfl) | hmem
  · omega
  · omega
  · omega
  · omega
  · exact h x hmem

/-- Flipping any single byte of the nonce, the carried plaintext or the tag of
an output of the idealized seal makes decrypt fail with the decryption
error. -/
theorem decrypt_tampered (cs : ConsulStorage) (nonce pt : Bytes) (i b : Nat)
    (hkey : validAesKeyLength cs.AESKey.length = true)
    (hnWF : BytesWF nonce) (hpWF : BytesWF pt)
    (hn : nonce.length = gcmNonceSize) (hb : b < 256)
    (hi : i < (nonce ++ gcmSeal cs.AESKey nonce pt).length)
    (hne : b ≠ (nonce ++ gcmSeal cs.AESKey nonce pt).getD i 0) :
    decrypt cs ((nonce ++ gcmSeal cs.AESKey nonce pt).set i b)
      = Except.error CryptoErr.decryptFailure := by
  have htag : (gcmTag cs.AESKey nonce pt).length = gcmTagSize := gcmTag_length ..
  have hout_len : (nonce ++ gcmSeal cs.AESKey nonce pt).length
      = gcmNonceSize + (pt.length + gcmTagSize) := by
    simp [gcmSeal_length, hn]
  have hset_len : ((nonce ++ gcmSeal cs.AESKey nonce pt).set i b).length
      = gcmNonceSize + (pt.length + gcmTagSize) := by
    simp [hout_len]
  have hopen : gcmOpen cs.AESKey
      (((nonce ++ gcmSeal cs.AESKey nonce pt).set i b).take gcmNonceSize)
      (((nonce ++ gcmSeal cs.AESKey nonce pt).set i b).drop gcmNonceSize) = none := by
    by_cases hA : i < nonce.length
    · rw [List.set_append_left i b hA, List.take_left' (by simp [hn]),
        List.drop_left' (by simp [hn])]
      rw [getD_append_left _ _ _ hA] at hne
      show gcmOpen cs.AESKey (nonce.set i b) (pt ++ gcmTag cs.AESKey nonce pt) = none
      rw [gcmOpen_append_tag _ _ _ _ htag, if_neg ?_]
      intro heq
      rw [gcmTag_eq_iff] at heq
      have hmod : byteSum cs.AESKey + byteSum nonce + byteSum pt
          ≡ byteSum cs.AESKey + byteSum (nonce.set i b) + byteSum pt [MOD 256] := heq
      have hmod2 := Nat.ModEq.add_right_cancel' (byteSum pt) hmod
      have hmod3 := Nat.ModEq.add_left_cancel' (byteSum cs.AESKey) hmod2
      exact byteSum_set_not_modeq nonce i b hnWF hA hb hne hmod3
    · have hA' : nonce.length ≤ i := Nat.le_of_not_lt hA
      rw [List.set_append_right i b hA', List.take_left' hn, List.drop_left' hn]
      rw [getD_append_right _ _ _ hA'] at hne
      have hne2 : b ≠ (pt ++ gcmTag cs.AESKey nonce pt).getD (i - nonce.length) 0 := hne
      have hj : i - nonce.length < pt.length + gcmTagSize := by
        rw [hout_len] at hi
        omega
      show gcmOpen cs.AESKey nonce
        ((pt ++ gcmTag cs.AESKey nonce pt).set (i - nonce.length) b) = none
      by_cases hB : i - nonce.length < pt.length
      · rw [List.set_append_left _ b hB, gcmOpen_append_tag _ _ _ _ htag, if_neg ?_]
        rw [getD_append_left _ _ _ hB] at hne2
        intro heq
        rw [gcmTag_eq_iff] at heq
        have hmod : byteSum cs.AESKey + byteSum nonce + byteSum pt
            ≡ byteSum cs.AESKey + byteSum nonce
              + byteSum (pt.set (i - nonce.length) b) [MOD 256] := heq
        have hmod2 := Nat.ModEq.add_left_cancel'
          (byteSum cs.AESKey + byteSum nonce) hmod
        exact byteSum_set_not_modeq pt _ b hpWF hB hb hne2 hmod2
      · have hB' : pt.length ≤ i - nonce.length := Nat.le_of_not_lt hB
        rw [List.set_append_right _ b hB']
        rw [getD_append_right _ _ _ hB'] at hne2
        have hk : i - nonce.length - pt.length < gcmTagSize := by omega
        rw [gcmOpen_append_tag _ _ _ _ (by simp [htag]), if_neg ?_]
        exact set_ne_self (gcmTag cs.AESKey nonce pt) _ b (htag ▸ hk) hne2
  unfold decrypt
  rw [if_neg (validAesKeyLength_pos hkey),
    if_neg (by rw [hset_len]; simp only [aesBlockSize, gcmNonceSize, gcmTagSize]; omega),
    if_neg (by simp [hkey]), hopen]

/-- C2: tamper detection.  With a valid AES key configured and well-formed
bytes everywhere, changing any single byte (at any position: nonce, body or
tag) of an EncryptStorageData output to a different byte value makes
DecryptStorageData fail with the decryption error, so it never returns a
record with different contents. -/
theorem C2_tamper_detection (cs : ConsulStorage) (d : StorageData) (nonce out : Bytes)
    (i b : Nat)
    (hkey : validAesKeyLength cs.AESKey.length = true)
    (hvpWF : BytesWF cs.ValuePrefix) (hdWF : BytesWF d.Value)
    (hnWF : BytesWF nonce) (hn : nonce.length = gcmNonceSize)
    (hout : EncryptStorageData cs nonce d = Except.ok out)
    (hi : i < out.length) (hb : b < 256) (hne : b ≠ out.getD i 0) :
    DecryptStorageData cs (out.set i b) = Except.error CryptoErr.decryptFailure := by
  have hform := encrypt_ok_form cs nonce d hkey
  rw [hout] at hform
  have hout_eq : out = nonce ++ gcmSeal cs.AESKey nonce (cs.ValuePrefix ++ jsonMarshal d) :=
    Except.ok.inj hform
  subst hout_eq
  have hpWF : BytesWF (cs.ValuePrefix ++ jsonMarshal d) :=
    BytesWF_append hvpWF (jsonMarshal_WF d hdWF)
  have hdec := decrypt_tampered cs nonce (cs.ValuePrefix ++ jsonMarshal d) i b
    hkey hnWF hpWF hn hb hi hne
  unfold DecryptStorageData
  rw [hdec]

theorem C2_tamper_detection_witness :
    DecryptStorageData ⟨List.replicate 16 3, [7]⟩
      ((List.replicate 12 0 ++ gcmSeal (List.replicate 16 3) (List.replicate 12 0)
        ([7] ++ jsonMarshal ⟨[5], 2⟩)).set 0 9)
      = Except.error CryptoErr.decryptFailure :=
  C2_tamper_detection ⟨List.replicate 16 3, [7]⟩ ⟨[5], 2⟩ (List.replicate 12 0)
    (List.replicate 12 0 ++ gcmSeal (List.replicate 16 3) (List.replicate 12 0)
      ([7] ++ jsonMarshal ⟨[5], 2⟩)) 0 9
    (by decide) (by decide) (by decide) (by decide) (by decide) (by rfl)
    (by decide) (by decide) (by decide)

/-- Modelled from the spec: the Storage Façade's List operation lives in
storage.go, which is not among the visible sources.  Keys are slash-delimited
paths, embedded as lists of segments; `underDir dir k` holds when `k` is a
strict descendant of the directory path `dir`. -/
def underDir : List String → List String → Bool
  | [], [] => false
  | [], _ :: _ => true
  | _ :: _, [] => false
  | p :: ps, s :: ks => p == s && underDir ps ks

/-- Modelled from the spec: List(prefix, recursive).  Recursive mode returns
every descendant leaf key under the path; non-recursive mode synthesizes one
directory level by slicing each descendant at the next path segment and
deduplicating the results. -/
def listKeys (keys : List (List String)) (dir : List String) (recursive : Bool) :
    List (List String) :=
  if recursive then keys.filter (fun k => underDir dir k)
  else ((keys.filter (fun k => underDir dir k)).map
    (fun k => dir ++ [k.getD dir.length ""])).dedup

/-- C7: non-recursive listing synthesizes one directory level.  After storing
a/b/x, a/b/y and a/b/z, recursive listing of a/b returns exactly the three
leaf keys, and non-recursive listing of a returns exactly the single
synthesized child a/b. -/
theorem C7_list_one_level :
    listKeys [["a", "b", "x"], ["a", "b", "y"], ["a", "b", "z"]] ["a", "b"] true
      = [["a", "b", "x"], ["a", "b", "y"], ["a", "b", "z"]] ∧
    listKeys [["a", "b", "x"], ["a", "b", "y"], ["a", "b", "z"]] ["a"] false
      = [["a", "b"]] := by
  constructor <;> rfl

/-- Modelled from the spec: the Distributed Lock lives in storage.go, absent
from the visible sources.  Global state of one lock key: which session (if
any) holds the key in the KV store, and which instances hold an Acquired
handle. -/
structure LockState where
  holder : Option Nat
  acquired : List Nat

/-- Modelled from the spec: the lock protocol's transitions.  An instance can
acquire only through the conditional set, which succeeds only while no session
holds the key; Unlock releases the key, as does TTL expiry of the holder's
session. -/
inductive LockStep : LockState → LockState → Prop where
  | lock (i : Nat) (acq : List Nat) : LockStep ⟨none, acq⟩ ⟨some i, i :: acq⟩
  | unlock (i : Nat) (acq : List Nat) : LockStep ⟨some i, acq⟩ ⟨none, acq.erase i⟩
  | expire (i : Nat) (acq : List Nat) : LockStep ⟨some i, acq⟩ ⟨none, acq.erase i⟩

/-- The initial state: the key unheld, no handle acquired. -/
def lockInit : LockState := ⟨none, []⟩

/-- States reachable from the initial state through the lock protocol. -/
inductive LockReach : LockState → Prop where
  | init : LockReach lockInit
  | step {s t : LockState} : LockReach s → LockStep s t → LockReach t

/-- The protocol invariant: every acquired handle belongs to the session
holding the key, and no handle is acquired while the key is unheld. -/
def LockInv (s : LockState) : Prop :=
  match s.holder with
  | none => s.acquired = []
  | some i => s.acquired = [] ∨ s.acquired = [i]

theorem lockInv_step {s t : LockState} (hs : LockInv s) (h : LockStep s t) : LockInv t := by
  cases h with
  | lock i acq =>
    have hacq : acq = [] := hs
    subst hacq
    exact Or.inr rfl
  | unlock i acq =>
    have hs2 : acq = [] ∨ acq = [i] := hs
    show acq.erase i = []
    rcases hs2 with h2 | h2 <;> subst h2 <;> simp
  | expire i acq =>
    have hs2 : acq = [] ∨ acq = [i] := hs
    show acq.erase i = []
    rcases hs2 with h2 | h2 <;> subst h2 <;> simp

theorem lockInv_reach {s : LockState} (h : LockReach s) : LockInv s := by
  induction h with
  | init => exact rfl
  | step _ hstep ih => exact lockInv_step ih hstep

/-- C3: mutual exclusion of the distributed lock.  In every reachable state at
most one instance holds an Acquired handle; a new handle can become Acquired
only through a step taken while no session holds the key (a second Lock call
therefore waits while the key is held); and once the holder releases, the
waiting instance's acquisition step succeeds. -/
theorem C3_lock_mutual_exclusion :
    (∀ s, LockReach s → ∀ i j, i ∈ s.acquired → j ∈ s.acquired → i = j) ∧
    (∀ s t i, LockStep s t → i ∈ t.acquired → i ∉ s.acquired → s.holder = none) ∧
    (∀ j i : Nat, LockStep ⟨some j, [j]⟩ ⟨none, []⟩ ∧ LockStep ⟨none, []⟩ ⟨some i, [i]⟩) := by
  refine ⟨?_, ?_, ?_⟩
  · intro s hreach i j hi hj
    have hinv := lockInv_reach hreach
    rcases s with ⟨holder, acq⟩
    cases holder with
    | none =>
      have hacq : acq = [] := hinv
      subst hacq
      simp at hi
    | some k =>
      have hinv2 : acq = [] ∨ acq = [k] := hinv
      rcases hinv2 with h2 | h2 <;> subst h2
      · simp at hi
      · simp at hi hj
        rw [hi, hj]
  · intro s t i hstep hit hnis
    cases hstep with
    | lock i2 acq => rfl
    | unlock i2 acq => exact absurd (List.mem_of_mem_erase hit) hnis
    | expire i2 acq => exact absurd (List.mem_of_mem_erase hit) hnis
  · intro j i
    constructor
    · simpa using LockStep.unlock j [j]
    · exact LockStep.lock i []
